import Mathlib

/-!
Verification of `scripts/oplprobe.py`, the shared library of the
openpowerlifting scraper probe scripts.

The Python code is shallowly embedded: URLs are Lean `String`s, Python
`set`s of strings are modelled by `List String` up to membership (a theorem
quantifying over all lists covers every iteration order of a Python set),
printing is modelled by the list of emitted lines, exceptions by
`Option`/`Except`, and the two standard-library calls that the code makes
(`urllib.parse.unquote` and `str.encode('idna')`) are taken as parameters
in the general theorems; executable models of them, faithful on the ASCII
inputs used in every concrete evaluation below, are provided for witnesses
and counterexamples.
-/

namespace Oplprobe

/-- Tests whether `pat` occurs at the head of `s` (over character lists). -/
def startsWithL : List Char → List Char → Bool
  | [], _ => true
  | _ :: _, [] => false
  | p :: ps, c :: cs => p == c && startsWithL ps cs

/-- Python's substring test `pat in s`, over character lists: `pat` occurs
contiguously somewhere in `s` (the empty pattern occurs everywhere). -/
def hasSubL (pat : List Char) : List Char → Bool
  | [] => pat.isEmpty
  | c :: rest => startsWithL pat (c :: rest) || hasSubL pat rest

/-- Python's substring test `pat in s` on strings. -/
def pyIn (pat s : String) : Bool := hasSubL pat.data s.data

/-- Fuel-indexed worker for `replaceL`: scans the string left to right and
replaces each non-overlapping occurrence of `pat` by `rep`, as Python's
`str.replace` does for a non-empty pattern.  The fuel is the length of the
remaining input, which bounds the number of steps. -/
def replaceGo (pat rep : List Char) : Nat → List Char → List Char
  | 0, s => s
  | _ + 1, [] => []
  | fuel + 1, c :: rest =>
    if pat ≠ [] && startsWithL pat (c :: rest) then
      rep ++ replaceGo pat rep fuel ((c :: rest).drop pat.length)
    else
      c :: replaceGo pat rep fuel rest

/-- Python's `s.replace(pat, rep)` over character lists.  The probe code
only ever calls it with the non-empty patterns `"https://"`, `"http://"`,
`"%20"` and `" "`, for which this model is exact. -/
def replaceL (pat rep s : List Char) : List Char := replaceGo pat rep s.length s

/-- Python's `s.replace(pat, rep)` on strings. -/
def pyReplace (s pat rep : String) : String := ⟨replaceL pat.data rep.data s.data⟩

/-- Value of a hexadecimal digit, if the character is one. -/
def hexVal (c : Char) : Option Nat :=
  if '0' ≤ c ∧ c ≤ '9' then some (c.toNat - '0'.toNat)
  else if 'a' ≤ c ∧ c ≤ 'f' then some (c.toNat - 'a'.toNat + 10)
  else if 'A' ≤ c ∧ c ≤ 'F' then some (c.toNat - 'A'.toNat + 10)
  else none

/-- Model of `urllib.parse.unquote` restricted to single-byte escapes: each
`%XX` with `XX` two hex digits denoting a byte below `0x80` is decoded to
the corresponding ASCII character, anything else is copied through.  This
agrees with Python on every input evaluated in this file (none of them
contains a multi-byte UTF-8 percent-escape). -/
def unquoteGo : Nat → List Char → List Char
  | 0, s => s
  | _ + 1, [] => []
  | fuel + 1, c :: rest =>
    if c = '%' then
      match rest with
      | a :: b :: rest2 =>
        match hexVal a, hexVal b with
        | some va, some vb =>
          if va * 16 + vb < 128 then
            Char.ofNat (va * 16 + vb) :: unquoteGo fuel rest2
          else
            c :: unquoteGo fuel rest
        | _, _ => c :: unquoteGo fuel rest
      | _ => c :: unquoteGo fuel rest
    else
      c :: unquoteGo fuel rest

/-- Model of `urllib.parse.unquote` on strings (see `unquoteGo`). -/
def pyUnquote (s : String) : String := ⟨unquoteGo s.data.length s.data⟩

/-- Splits a character list at every occurrence of `sep`. -/
def splitOnCharGo (sep : Char) : List Char → List Char → List (List Char)
  | acc, [] => [acc.reverse]
  | acc, c :: rest =>
    if c = sep then acc.reverse :: splitOnCharGo sep [] rest
    else splitOnCharGo sep (c :: acc) rest

/-- Splits a character list at every occurrence of `sep` (Python's
`s.split(sep)` for a one-character separator). -/
def splitOnChar (sep : Char) (s : List Char) : List (List Char) :=
  splitOnCharGo sep [] s

/-- Model of Python's `host.encode('idna')` on its all-ASCII fast path:
an empty host encodes to itself; a non-empty ASCII host is returned
unchanged provided every dot-separated label except the last has length
1 to 63 and the last has length below 64, and the codec raises
`UnicodeError` (modelled as `none`) otherwise.  Hosts containing non-ASCII
characters take the codec's ToASCII path, which is not modelled (`none`);
no input evaluated in this file reaches it. -/
def pyIdnaEncode (host : String) : Option String :=
  if host.data = [] then some host
  else if ∀ c ∈ host.data, c.toNat < 128 then
    let labels := splitOnChar '.' host.data
    if (∀ l ∈ labels.dropLast, 0 < l.length ∧ l.length < 64) ∧
        (labels.getLastD []).length < 64 then
      some host
    else none
  else none

/-- Result of `urllib.parse.urlsplit`: the five components of a URL. -/
structure SplitResult where
  scheme : String
  netloc : String
  path : String
  query : String
  fragment : String
deriving DecidableEq, Repr

/-- Characters allowed in a URL scheme (letters, digits, `+`, `-`, `.`). -/
def isSchemeChar (c : Char) : Bool :=
  c.isAlpha || c.isDigit || c == '+' || c == '-' || c == '.'

/-- Model of `urllib.parse.urlsplit`: detect the scheme before the first
colon (non-empty, leading letter, scheme characters only; lowercased), then
the network location after `//` up to the first `/`, `?` or `#`, then split
off the fragment at the first `#` and the query at the first `?`, in that
order.  The control-character sanitisation some Python versions apply and
the bracket validation of the network location are not modelled; no input
evaluated in this file contains such characters. -/
def pyUrlsplit (url : String) : SplitResult :=
  let s := url.data
  let p :=
    match s.findIdx? (· == ':') with
    | some i =>
      if 0 < i ∧ (∀ c ∈ s.take i, isSchemeChar c = true) ∧
          ((s.take i).headD 'a').isAlpha = true then
        ((s.take i).map Char.toLower, s.drop (i + 1))
      else (([] : List Char), s)
    | none => (([] : List Char), s)
  let rest := p.2
  let q :=
    if startsWithL ['/', '/'] rest = true then
      let after := rest.drop 2
      let d := (after.findIdx? (fun c => c == '/' || c == '?' || c == '#')).getD after.length
      (after.take d, after.drop d)
    else (([] : List Char), rest)
  let rest2 := q.2
  let r :=
    if hasSubL ['#'] rest2 = true then
      let j := (rest2.findIdx? (· == '#')).getD rest2.length
      (rest2.take j, rest2.drop (j + 1))
    else (rest2, ([] : List Char))
  let t :=
    if hasSubL ['?'] r.1 = true then
      let j := (r.1.findIdx? (· == '?')).getD r.1.length
      (r.1.take j, r.1.drop (j + 1))
    else (r.1, ([] : List Char))
  { scheme := ⟨p.1⟩, netloc := ⟨q.1⟩, path := ⟨t.1⟩, query := ⟨t.2⟩, fragment := ⟨r.2⟩ }

/-- Model of `urllib.parse.urlunsplit`: reassemble the five components. -/
def pyUrlunsplit (p : SplitResult) : String :=
  let url := p.path.data
  let url :=
    if p.netloc.data ≠ [] ∨ (url ≠ [] ∧ startsWithL ['/', '/'] url = true) then
      '/' :: '/' :: (p.netloc.data ++
        (if url ≠ [] ∧ ¬ startsWithL ['/'] url = true then '/' :: url else url))
    else url
  let url := if p.scheme.data ≠ [] then p.scheme.data ++ ':' :: url else url
  let url := if p.query.data ≠ [] then url ++ '?' :: p.query.data else url
  let url := if p.fragment.data ≠ [] then url ++ '#' :: p.fragment.data else url
  ⟨url⟩

/-- The idna variant built at lines 61 to 64 of `getunenteredurls`: split
the URL, re-encode its host component with the idna codec, reassemble.
`none` models the `UnicodeError` escaping from `encode('idna')`. -/
def idnaVariant (idna : String → Option String) (k : String) : Option String :=
  let parts := pyUrlsplit k
  (idna parts.netloc).map fun h => pyUrlunsplit { parts with netloc := h }

/-- Body of the variants loop of `getunenteredurls` for one entry `k`: the
strings added to the `variants` set, in order of addition, or `none` when
the idna encoding of the host raises.  `uq` stands for
`urllib.parse.unquote` and `idna` for `str.encode('idna')`. -/
def variantsFor (uq : String → String) (idna : String → Option String) (k : String) :
    Option (List String) :=
  match idnaVariant idna k with
  | none => none
  | some u =>
    some ((if pyIn "https://" k then [pyReplace k "https://" "http://"] else []) ++
      (if pyIn "http://" k then [pyReplace k "http://" "https://"] else []) ++
      (if pyIn "%20" k then [pyReplace k "%20" " "] else []) ++
      (if pyIn " " k then [pyReplace k " " "%20"] else []) ++
      [uq k, u, uq u])

/-- The variants loop of `getunenteredurls` over the whole entered set,
collecting every entry's variants; `none` when any entry raises. -/
def expandVariants (uq : String → String) (idna : String → Option String) :
    List String → Option (List String)
  | [] => some []
  | k :: rest =>
    match variantsFor uq idna k, expandVariants uq idna rest with
    | some vs, some rest2 => some (vs ++ rest2)
    | _, _ => none

/-- The expanded entered set of `getunenteredurls`: the line
`enteredmeets = enteredmeets.union(variants)`.  Lists model Python sets up
to membership. -/
def expandEntered (uq : String → String) (idna : String → Option String)
    (enteredmeets : List String) : Option (List String) :=
  (expandVariants uq idna enteredmeets).map fun vs => enteredmeets ++ vs

/-- The filter loop of `getunenteredurls`: walk the candidate list in
order, skip candidates naming the authoritative site, skip candidates in
the expanded entered set or already collected, append the rest. -/
def unenteredLoop (enteredmeets : List String) : List String → List String → List String
  | acc, [] => acc
  | acc, m :: rest =>
    if pyIn "www.openpowerlifting.org" m then unenteredLoop enteredmeets acc rest
    else if m ∈ enteredmeets ∨ m ∈ acc then unenteredLoop enteredmeets acc rest
    else unenteredLoop enteredmeets (acc ++ [m]) rest

/-- `getunenteredurls(meetlist, enteredmeets)` of `oplprobe.py`: expand the
entered set with its variants, then filter the candidate list; `none`
models the `UnicodeError` raised by an unencodable host aborting the whole
call. -/
def getunenteredurls (uq : String → String) (idna : String → Option String)
    (meetlist enteredmeets : List String) : Option (List String) :=
  match expandEntered uq idna enteredmeets with
  | none => none
  | some entered => some (unenteredLoop entered [] meetlist)

/-- The variant rules for one entry as the specification words them: the
conditional scheme substitutions, the conditional space and `%20`
substitutions, the percent-decoded form, and the idna variant together
with its percent-decoded form (absent when the host is not encodable). -/
def specVariantsOf (uq : String → String) (idna : String → Option String) (k : String) :
    List String :=
  (if pyIn "https://" k then [pyReplace k "https://" "http://"] else []) ++
  (if pyIn "http://" k then [pyReplace k "http://" "https://"] else []) ++
  (if pyIn "%20" k then [pyReplace k "%20" " "] else []) ++
  (if pyIn " " k then [pyReplace k " " "%20"] else []) ++
  [uq k] ++
  (match idnaVariant idna k with
   | some u => [u, uq u]
   | none => [])

/-- Formatting of one output line of `print_meets`:
`"%s %s" % (fedstr, url.replace(' ', '%20'))`. -/
def fmtLine (fedstr url : String) : String := fedstr ++ " " ++ pyReplace url " " "%20"

/-- `print_meets(fedstr, meetlist)` of `oplprobe.py`, modelled by the list
of lines it prints: record the original length, truncate to the first five
entries when `--quick` is among the process arguments, print one formatted
line per remaining URL, and print a summary line when the original count
exceeds three. -/
def print_meets (argv : List String) (fedstr : String) (meetlist : List String) :
    List String :=
  let count := meetlist.length
  let ml := if "--quick" ∈ argv then meetlist.take 5 else meetlist
  ml.map (fmtLine fedstr) ++
    (if count > 3 then [fedstr ++ " " ++ toString count ++ " meets remaining."] else [])

/-- Exceptions that a `print` call can raise: `BrokenPipeError`, or any
other exception class, tagged by a code. -/
inductive PyExc where
  | brokenPipeError
  | otherExc (code : Nat)
deriving DecidableEq

/-- Runs a sequence of `print` calls through an output channel `emit` that
may raise, stopping at the first raised exception, as Python's statement
sequence does. -/
def runPrints (emit : String → Except PyExc Unit) : List String → Except PyExc Unit
  | [] => Except.ok ()
  | l :: ls =>
    match emit l with
    | Except.ok _ => runPrints emit ls
    | Except.error e => Except.error e

/-- The `try`/`except BrokenPipeError: pass` wrapper of `print_meets`: run
every print of the body through `emit`; a `BrokenPipeError` escaping the
body is swallowed, any other exception propagates. -/
def print_meets_run (emit : String → Except PyExc Unit) (argv : List String)
    (fedstr : String) (meetlist : List String) : Except PyExc Unit :=
  match runPrints emit (print_meets argv fedstr meetlist) with
  | Except.ok _ => Except.ok ()
  | Except.error PyExc.brokenPipeError => Except.ok ()
  | Except.error e => Except.error e

/-- The object returned by `urllib.request.urlopen`, restricted to the two
members `gethtml` reads: the resolved URL and the raw body bytes.
Transport failures raise inside `urlopen` itself, before this value
exists, and propagate to the caller untouched. -/
structure HttpResponse where
  geturl : String
  body : List Nat
deriving DecidableEq

/-- Outcome of `gethtml`: the raw body, or the `UnexpectedRedirect`
exception carrying the resolved URL. -/
inductive FetchResult where
  | ok (body : List Nat)
  | unexpectedRedirect (resolved : String)
deriving DecidableEq

/-- `gethtml(url, raise_on_redirect)` of `oplprobe.py`, given the response
`urlopen` produced: raise `UnexpectedRedirect(r.geturl())` when strict
mode is on and the resolved URL differs from the requested one, otherwise
return `r.read()`. -/
def gethtml (url : String) (raiseOnRedirect : Bool) (r : HttpResponse) : FetchResult :=
  if raiseOnRedirect = true ∧ r.geturl ≠ url then
    FetchResult.unexpectedRedirect r.geturl
  else FetchResult.ok r.body

/-- A directory tree: each directory holds plain files (name paired with
text content) and subdirectories.  Directory names play no role in the
scanner's result and are omitted. -/
inductive FsTree where
  | node (files : List (String × String)) (subdirs : List FsTree)

/-- Files of the root directory of a tree. -/
def filesOf : FsTree → List (String × String)
  | FsTree.node files _ => files

/-- Subdirectories of the root directory of a tree. -/
def subdirsOf : FsTree → List FsTree
  | FsTree.node _ subdirs => subdirs

/-- Worker for `pyReadlines`, with a reversed accumulator for the current
line. -/
def readlinesGo : List Char → List Char → List (List Char)
  | acc, [] => if acc = [] then [] else [acc.reverse]
  | acc, c :: rest =>
    if c = '\n' then (acc.reverse ++ ['\n']) :: readlinesGo [] rest
    else readlinesGo (c :: acc) rest

/-- Python's `fd.readlines()` on the file's text: the lines of the
content, each keeping its terminating newline, without a final empty
line. -/
def pyReadlines (content : String) : List String :=
  (readlinesGo [] content.data).map fun l => ⟨l⟩

/-- ASCII whitespace stripped by Python's `str.strip()` (its additional
Unicode whitespace does not occur in any input considered here). -/
def isPySpace (c : Char) : Bool :=
  c == ' ' || c == '\t' || c == '\n' || c == '\r' || c == '\x0b' || c == '\x0c'

/-- Python's `line.strip()`: remove leading and trailing whitespace. -/
def pyStrip (s : String) : String :=
  ⟨((s.data.dropWhile isPySpace).reverse.dropWhile isPySpace).reverse⟩

/-- Contribution of one directory to the scanner's result: when a file
named `URL` is present (file names within one directory are unique, so an
association-list lookup models the `'URL' in files` test plus the
subsequent open), every line of it, stripped; nothing otherwise. -/
def urlFileLines (files : List (String × String)) : List String :=
  match files.lookup "URL" with
  | some content => (pyReadlines content).map pyStrip
  | none => []

/-- `getenteredurls(feddir)` of `oplprobe.py`: `os.walk` visits every
directory of the tree, and each directory holding a `URL` file contributes
its stripped lines to the accumulated set.  Lists model Python sets up to
membership. -/
def getenteredurls : FsTree → List String
  | FsTree.node files subdirs =>
    urlFileLines files ++ (subdirs.attach.map fun d => getenteredurls d.1).flatten
decreasing_by
  simp_wf
  have := List.sizeOf_lt_of_mem d.2
  omega

/-- Every directory `os.walk` visits in a tree: the root and, recursively,
the directories of each subtree. -/
def dirsOf : FsTree → List FsTree
  | FsTree.node files subdirs =>
    FsTree.node files subdirs :: (subdirs.attach.map fun d => dirsOf d.1).flatten
decreasing_by
  simp_wf
  have := List.sizeOf_lt_of_mem d.2
  omega

/-- Contribution of one directory as the specification words it: only the
non-empty stripped lines of the `URL` file. -/
def specUrlFileLines (files : List (String × String)) : List String :=
  match files.lookup "URL" with
  | some content => ((pyReadlines content).map pyStrip).filter (fun s => s ≠ "")
  | none => []

/-- The directory scanner as the specification words it: like
`getenteredurls`, but adding only non-empty stripped lines. -/
def specScanner : FsTree → List String
  | FsTree.node files subdirs =>
    specUrlFileLines files ++ (subdirs.attach.map fun d => specScanner d.1).flatten
decreasing_by
  simp_wf
  have := List.sizeOf_lt_of_mem d.2
  omega

/-- Addresses into a heap of Python `set` objects holding strings. -/
abbrev Heap := List (List String)

/-- Reading a set object from the heap. -/
def heapGet (h : Heap) (a : Nat) : List String := h.getD a []

/-- Overwriting a set object in place (a mutating `set.add`). -/
def heapSet (h : Heap) (a : Nat) (v : List String) : Heap := h.set a v

/-- Allocating a fresh set object (`set()`, or the result of `union`). -/
def heapAlloc (h : Heap) (v : List String) : Heap × Nat := (h ++ [v], h.length)

/-- The variants loop of `getunenteredurls` acting on the heap: the
`variants.add` calls for each entry write only the `variants` object at
address `va`; a `UnicodeError` stops the loop (second component
`false`). -/
def variantsLoopH (uq : String → String) (idna : String → Option String) (va : Nat) :
    List String → Heap → Heap × Bool
  | [], h => (h, true)
  | k :: rest, h =>
    match variantsFor uq idna k with
    | none => (h, false)
    | some vs => variantsLoopH uq idna va rest (heapSet h va (heapGet h va ++ vs))

/-- `getunenteredurls` in a heap-passing form, taking the caller's entered
set by reference: `variants = set()` allocates, the loop mutates only that
fresh object, `enteredmeets.union(variants)` allocates the union and the
local name is rebound to it; the caller's object is only ever read. -/
def getunenteredurlsH (uq : String → String) (idna : String → Option String)
    (meetlist : List String) (enteredRef : Nat) (h : Heap) : Heap × Option (List String) :=
  let a := heapAlloc h []
  let lp := variantsLoopH uq idna a.2 (heapGet a.1 enteredRef) a.1
  if lp.2 = true then
    let u := heapAlloc lp.1 (heapGet lp.1 enteredRef ++ heapGet lp.1 a.2)
    (u.1, some (unenteredLoop (heapGet u.1 u.2) [] meetlist))
  else (lp.1, none)

theorem unenteredLoop_invariant (entered : List String) :
    ∀ (l acc : List String), ∃ ext,
      unenteredLoop entered acc l = acc ++ ext ∧
      ext.Sublist l ∧
      (∀ x ∈ ext, x ∉ entered ∧ x ∉ acc ∧ pyIn "www.openpowerlifting.org" x = false) ∧
      ext.Nodup := by
  intro l
  induction l with
  | nil =>
    intro acc
    exact ⟨[], by simp [unenteredLoop]⟩
  | cons m rest ih =>
    intro acc
    rw [unenteredLoop]
    by_cases h1 : pyIn "www.openpowerlifting.org" m = true
    · obtain ⟨ext, heq, hsub, hprop, hnd⟩ := ih acc
      exact ⟨ext, by simp [h1, heq], hsub.cons _, hprop, hnd⟩
    · by_cases h2 : m ∈ entered ∨ m ∈ acc
      · obtain ⟨ext, heq, hsub, hprop, hnd⟩ := ih acc
        exact ⟨ext, by simp [h1, h2, heq], hsub.cons _, hprop, hnd⟩
      · obtain ⟨ext, heq, hsub, hprop, hnd⟩ := ih (acc ++ [m])
        push_neg at h2
        refine ⟨m :: ext, ?_, hsub.cons₂ _, ?_, ?_⟩
        · simp [h1, h2.1, h2.2, heq]
        · intro x hx
          rcases List.mem_cons.mp hx with rfl | hx
          · exact ⟨h2.1, h2.2, by simpa using h1⟩
          · obtain ⟨he, ha, hp⟩ := hprop x hx
            exact ⟨he, fun hxa => ha (List.mem_append_left _ hxa), hp⟩
        · refine List.nodup_cons.mpr ⟨fun hm => ?_, hnd⟩
          exact (hprop m hm).2.1 (List.mem_append_right _ (List.mem_singleton_self m))

/-- C1.  For every candidate list and entered set, when the call succeeds
the unentered result is a subsequence of the candidate list in its
original order, has no duplicates, contains no element of the expanded
entered set, and contains no URL with `www.openpowerlifting.org` as a
substring. -/
theorem getunenteredurls_correct (uq : String → String) (idna : String → Option String)
    (meetlist enteredmeets expanded res : List String)
    (hexp : expandEntered uq idna enteredmeets = some expanded)
    (hres : getunenteredurls uq idna meetlist enteredmeets = some res) :
    res.Sublist meetlist ∧ res.Nodup ∧
      (∀ x ∈ res, x ∉ expanded) ∧
      (∀ x ∈ res, pyIn "www.openpowerlifting.org" x = false) := by
  unfold getunenteredurls at hres
  rw [hexp] at hres
  simp only [Option.some.injEq] at hres
  obtain ⟨ext, heq, hsub, hprop, hnd⟩ := unenteredLoop_invariant expanded meetlist []
  simp only [List.nil_append] at heq
  rw [← hres, heq]
  exact ⟨hsub, hnd, fun x hx => (hprop x hx).1, fun x hx => (hprop x hx).2.2⟩

/-- Witness for C1 at the specification's scenario:
entered `{"http://fed.com/meet1"}`, candidates
`["https://fed.com/meet1", "http://fed.com/meet2"]`. -/
theorem getunenteredurls_correct_witness :
    (["http://fed.com/meet2"] : List String).Sublist
        ["https://fed.com/meet1", "http://fed.com/meet2"] ∧
      (["http://fed.com/meet2"] : List String).Nodup ∧
      (∀ x ∈ (["http://fed.com/meet2"] : List String),
        x ∉ (["http://fed.com/meet1", "https://fed.com/meet1", "http://fed.com/meet1",
          "http://fed.com/meet1", "http://fed.com/meet1"] : List String)) ∧
      (∀ x ∈ (["http://fed.com/meet2"] : List String),
        pyIn "www.openpowerlifting.org" x = false) :=
  getunenteredurls_correct pyUnquote pyIdnaEncode
    ["https://fed.com/meet1", "http://fed.com/meet2"] ["http://fed.com/meet1"]
    ["http://fed.com/meet1", "https://fed.com/meet1", "http://fed.com/meet1",
      "http://fed.com/meet1", "http://fed.com/meet1"]
    ["http://fed.com/meet2"] (by decide) (by decide)

theorem variantsFor_eq_spec (uq : String → String) (idna : String → Option String)
    (k : String) (l : List String) (h : variantsFor uq idna k = some l) :
    l = specVariantsOf uq idna k := by
  unfold variantsFor at h
  unfold specVariantsOf
  cases hid : idnaVariant idna k with
  | none => rw [hid] at h; exact absurd h (by simp)
  | some u =>
    rw [hid] at h
    simp only [Option.some.injEq] at h
    rw [← h]
    simp

theorem mem_expandVariants (uq : String → String) (idna : String → Option String) :
    ∀ (E vs : List String), expandVariants uq idna E = some vs →
      ∀ x, (x ∈ vs ↔ ∃ k ∈ E, x ∈ specVariantsOf uq idna k) := by
  intro E
  induction E with
  | nil =>
    intro vs h x
    simp only [expandVariants, Option.some.injEq] at h
    simp [← h]
  | cons k rest ih =>
    intro vs h x
    unfold expandVariants at h
    cases hv : variantsFor uq idna k with
    | none => rw [hv] at h; exact absurd h (by simp)
    | some l =>
      cases hr : expandVariants uq idna rest with
      | none => rw [hv, hr] at h; exact absurd h (by simp)
      | some rest2 =>
        rw [hv, hr] at h
        simp only [Option.some.injEq] at h
        rw [← h, List.mem_append, variantsFor_eq_spec uq idna k l hv, ih rest2 hr x]
        simp

/-- C2.  For every entered set, the successful expansion step produces
exactly the entered set unioned with each entry's variants: the
conditional scheme substitutions, the conditional `%20` and space
substitutions, the percent-decoded form, and the idna-host variant
together with its percent-decoded form. -/
theorem expandEntered_exact (uq : String → String) (idna : String → Option String)
    (E V : List String) (h : expandEntered uq idna E = some V) :
    ∀ x, x ∈ V ↔ x ∈ E ∨ ∃ k ∈ E, x ∈ specVariantsOf uq idna k := by
  unfold expandEntered at h
  cases hv : expandVariants uq idna E with
  | none => rw [hv] at h; exact absurd h (by simp)
  | some vs =>
    rw [hv] at h
    simp only [Option.map_some', Option.some.injEq] at h
    intro x
    rw [← h, List.mem_append, mem_expandVariants uq idna E vs hv x]

/-- Witness for C2 at the entered set `{"http://fed.com/meet1"}` and the
variant string `"https://fed.com/meet1"`. -/
theorem expandEntered_exact_witness :
    "https://fed.com/meet1" ∈
        (["http://fed.com/meet1", "https://fed.com/meet1", "http://fed.com/meet1",
          "http://fed.com/meet1", "http://fed.com/meet1"] : List String) ↔
      "https://fed.com/meet1" ∈ (["http://fed.com/meet1"] : List String) ∨
        ∃ k ∈ (["http://fed.com/meet1"] : List String),
          "https://fed.com/meet1" ∈ specVariantsOf pyUnquote pyIdnaEncode k :=
  expandEntered_exact pyUnquote pyIdnaEncode ["http://fed.com/meet1"]
    ["http://fed.com/meet1", "https://fed.com/meet1", "http://fed.com/meet1",
      "http://fed.com/meet1", "http://fed.com/meet1"] (by decide) "https://fed.com/meet1"

theorem expand_extensive_aux (uq : String → String) (idna : String → Option String)
    (E V : List String) (h : expandEntered uq idna E = some V) : E ⊆ V := by
  unfold expandEntered at h
  cases hv : expandVariants uq idna E with
  | none => rw [hv] at h; exact absurd h (by simp)
  | some vs =>
    rw [hv] at h
    simp only [Option.map_some', Option.some.injEq] at h
    rw [← h]
    exact fun x hx => List.mem_append_left _ hx

/-- C8.  For every entered set, the successfully expanded set is a
superset of the entered set: expansion never removes an entry. -/
theorem expandEntered_superset (uq : String → String) (idna : String → Option String)
    (E V : List String) (h : expandEntered uq idna E = some V) : E ⊆ V :=
  expand_extensive_aux uq idna E V h

/-- Witness for C8 at the entered set `{"http://fed.com/meet1"}`. -/
theorem expandEntered_superset_witness :
    (["http://fed.com/meet1"] : List String) ⊆
      ["http://fed.com/meet1", "https://fed.com/meet1", "http://fed.com/meet1",
        "http://fed.com/meet1", "http://fed.com/meet1"] :=
  expandEntered_superset pyUnquote pyIdnaEncode ["http://fed.com/meet1"]
    ["http://fed.com/meet1", "https://fed.com/meet1", "http://fed.com/meet1",
      "http://fed.com/meet1", "http://fed.com/meet1"] (by decide)

/-- Counterexample to C3.  Expanding the already-expanded set of
`{"http://x.com/a b"}` yields the string `"https://x.com/a%20b"` (the
`%20`-encoding of the scheme-swapped variant), which the first pass did
not produce: the expansion is not a one-pass fixed point. -/
theorem expand_not_fixed_point_cex :
    "https://x.com/a%20b" ∈
        ((expandEntered pyUnquote pyIdnaEncode ["http://x.com/a b"]).bind
          (expandEntered pyUnquote pyIdnaEncode)).getD [] ∧
      "https://x.com/a%20b" ∉
        (expandEntered pyUnquote pyIdnaEncode ["http://x.com/a b"]).getD [] := by
  constructor
  · decide
  · decide

/-- C3 as amended.  A second expansion pass can add new variants, but it
never removes anything: whenever both passes succeed, the once-expanded
set is contained in the twice-expanded set. -/
theorem expand_second_pass_extensive (uq : String → String) (idna : String → Option String)
    (E V W : List String) (_h1 : expandEntered uq idna E = some V)
    (h2 : expandEntered uq idna V = some W) : V ⊆ W :=
  expand_extensive_aux uq idna V W h2

/-- Witness for the amended C3 at the entered set `{"http://x.com/a b"}`. -/
theorem expand_second_pass_extensive_witness :
    ((expandEntered pyUnquote pyIdnaEncode ["http://x.com/a b"]).getD []) ⊆
      ((expandEntered pyUnquote pyIdnaEncode
        ((expandEntered pyUnquote pyIdnaEncode ["http://x.com/a b"]).getD [])).getD []) :=
  expand_second_pass_extensive pyUnquote pyIdnaEncode ["http://x.com/a b"] _ _
    (by decide) (by decide)

/-- C4.  With the quick flag among the process arguments, `print_meets`
prints one formatted line for the first five entries only, and prints the
summary line exactly when the original, pre-truncation length exceeds
three, showing that original length. -/
theorem print_meets_quick_spec (argv : List String) (fedstr : String)
    (meetlist : List String) (h : "--quick" ∈ argv) :
    print_meets argv fedstr meetlist =
      (meetlist.take 5).map (fmtLine fedstr) ++
        (if meetlist.length > 3 then
          [fedstr ++ " " ++ toString meetlist.length ++ " meets remaining."]
        else []) := by
  unfold print_meets
  simp [h]

/-- Witness for C4 at a quick invocation with eight candidates. -/
theorem print_meets_quick_spec_witness :
    print_meets ["--quick"] "fed" ["a", "b c", "c", "d", "e", "f", "g", "h"] =
      ((["a", "b c", "c", "d", "e", "f", "g", "h"] : List String).take 5).map (fmtLine "fed") ++
        (if (["a", "b c", "c", "d", "e", "f", "g", "h"] : List String).length > 3 then
          ["fed" ++ " " ++ toString (["a", "b c", "c", "d", "e", "f", "g", "h"] : List String).length
            ++ " meets remaining."]
        else []) :=
  print_meets_quick_spec ["--quick"] "fed" ["a", "b c", "c", "d", "e", "f", "g", "h"]
    (by decide)

/-- C5 (failing input).  An entered entry whose host the idna codec cannot
encode (here `x..com`, an empty label) aborts the whole comparison: the
call raises instead of returning a result, contrary to the fail-soft
behaviour the specification asks for. -/
theorem getunenteredurls_idna_raises :
    getunenteredurls pyUnquote pyIdnaEncode ["http://a.com/x"] ["http://x..com/a"] = none := by
  decide

/-- C7.  In strict mode, `gethtml` raises `UnexpectedRedirect` carrying
the resolved URL exactly when the resolved URL differs from the requested
one, and returns the raw body exactly when they agree. -/
theorem gethtml_strict_redirect (url : String) (r : HttpResponse) :
    (gethtml url true r = FetchResult.unexpectedRedirect r.geturl ↔ r.geturl ≠ url) ∧
      (gethtml url true r = FetchResult.ok r.body ↔ r.geturl = url) := by
  unfold gethtml
  by_cases h : r.geturl = url
  · simp [h]
  · simp [h]

/-- C9.  The `print_meets` wrapper swallows a `BrokenPipeError` raised by
its print calls, propagates every other exception class unchanged, and
never lets a `BrokenPipeError` reach the caller. -/
theorem print_meets_broken_pipe (emit : String → Except PyExc Unit) (argv : List String)
    (fedstr : String) (meetlist : List String) :
    (runPrints emit (print_meets argv fedstr meetlist) = Except.error PyExc.brokenPipeError →
        print_meets_run emit argv fedstr meetlist = Except.ok ()) ∧
      (∀ n, runPrints emit (print_meets argv fedstr meetlist) = Except.error (PyExc.otherExc n) →
        print_meets_run emit argv fedstr meetlist = Except.error (PyExc.otherExc n)) ∧
      print_meets_run emit argv fedstr meetlist ≠ Except.error PyExc.brokenPipeError := by
  unfold print_meets_run
  cases h : runPrints emit (print_meets argv fedstr meetlist) with
  | ok u => simp
  | error e => cases e <;> simp

/-- An output channel whose consumer has gone away: every print raises
`BrokenPipeError`. -/
def emitBroken : String → Except PyExc Unit :=
  fun _ => Except.error PyExc.brokenPipeError

/-- Witness for C9: printing one meet into a broken pipe returns
normally. -/
theorem print_meets_broken_pipe_witness :
    print_meets_run emitBroken [] "fed" ["http://a.com/x"] = Except.ok () :=
  (print_meets_broken_pipe emitBroken [] "fed" ["http://a.com/x"]).1 (by rfl)

theorem heapGet_append (h : Heap) (x : List String) (a : Nat) (ha : a < h.length) :
    heapGet (h ++ [x]) a = heapGet h a :=
  List.getD_append _ _ _ _ ha

theorem heapGet_set_ne (h : Heap) (va a : Nat) (v : List String) (hne : a ≠ va) :
    heapGet (heapSet h va v) a = heapGet h a := by
  unfold heapGet heapSet
  rw [List.getD_eq_getElem?_getD, List.getD_eq_getElem?_getD,
    List.getElem?_set_ne (Ne.symm hne)]

theorem variantsLoopH_get (uq : String → String) (idna : String → Option String)
    (va a : Nat) (hne : a ≠ va) :
    ∀ (l : List String) (h : Heap),
      heapGet (variantsLoopH uq idna va l h).1 a = heapGet h a := by
  intro l
  induction l with
  | nil => intro h; rfl
  | cons k rest ih =>
    intro h
    cases hv : variantsFor uq idna k with
    | none => simp [variantsLoopH, hv]
    | some vs =>
      simp only [variantsLoopH, hv]
      rw [ih, heapGet_set_ne _ _ _ _ hne]

theorem variantsLoopH_length (uq : String → String) (idna : String → Option String)
    (va : Nat) :
    ∀ (l : List String) (h : Heap),
      (variantsLoopH uq idna va l h).1.length = h.length := by
  intro l
  induction l with
  | nil => intro h; rfl
  | cons k rest ih =>
    intro h
    cases hv : variantsFor uq idna k with
    | none => simp [variantsLoopH, hv]
    | some vs =>
      simp only [variantsLoopH, hv]
      rw [ih]
      exact List.length_set h _ _

/-- C10.  `getunenteredurls` never writes to the caller's entered-set
object: after the call, whether it returned a result or raised, the set
at the caller's address holds exactly its original elements. -/
theorem getunenteredurlsH_frame (uq : String → String) (idna : String → Option String)
    (meetlist : List String) (enteredRef : Nat) (h : Heap)
    (href : enteredRef < h.length) :
    heapGet (getunenteredurlsH uq idna meetlist enteredRef h).1 enteredRef =
      heapGet h enteredRef := by
  have hne : enteredRef ≠ h.length := Nat.ne_of_lt href
  have hga : heapGet (h ++ [[]]) enteredRef = heapGet h enteredRef :=
    heapGet_append _ _ _ href
  have hlen : (variantsLoopH uq idna h.length (heapGet (h ++ [[]]) enteredRef)
      (h ++ [[]])).1.length = h.length + 1 := by
    rw [variantsLoopH_length]
    simp
  have hget : heapGet (variantsLoopH uq idna h.length (heapGet (h ++ [[]]) enteredRef)
      (h ++ [[]])).1 enteredRef = heapGet h enteredRef := by
    rw [variantsLoopH_get uq idna _ _ hne, hga]
  unfold getunenteredurlsH heapAlloc
  dsimp only
  split
  · rw [heapGet_append _ _ _ (by rw [hlen]; omega)]
    exact hget
  · exact hget

/-- Witness for C10 at a heap holding one entered set. -/
theorem getunenteredurlsH_frame_witness :
    heapGet (getunenteredurlsH pyUnquote pyIdnaEncode ["http://a.com/x"] 0
        [["http://fed.com/meet1"]]).1 0 =
      heapGet [["http://fed.com/meet1"]] 0 :=
  getunenteredurlsH_frame pyUnquote pyIdnaEncode ["http://a.com/x"] 0
    [["http://fed.com/meet1"]] (by decide)

theorem mem_urlFileLines (files : List (String × String)) (x : String) :
    x ∈ urlFileLines files ↔ ∃ content, files.lookup "URL" = some content ∧
      ∃ line ∈ pyReadlines content, pyStrip line = x := by
  unfold urlFileLines
  cases hl : files.lookup "URL" with
  | none => simp
  | some c => simp [List.mem_map]

theorem mem_getenteredurls_aux :
    ∀ (n : Nat) (t : FsTree), sizeOf t ≤ n → ∀ x : String,
      (x ∈ getenteredurls t ↔ ∃ d ∈ dirsOf t, x ∈ urlFileLines (filesOf d)) := by
  intro n
  induction n with
  | zero =>
    intro t ht
    cases t with
    | node files subdirs => simp at ht
  | succ n ih =>
    intro t ht x
    cases t with
    | node files subdirs =>
      have hsub : ∀ d ∈ subdirs, ∀ x : String,
          (x ∈ getenteredurls d ↔ ∃ d' ∈ dirsOf d, x ∈ urlFileLines (filesOf d')) := by
        intro d hd x
        apply ih
        have h1 := List.sizeOf_lt_of_mem hd
        have h2 : sizeOf (FsTree.node files subdirs) = 1 + sizeOf files + sizeOf subdirs := by
          simp
        omega
      simp only [getenteredurls, dirsOf]
      constructor
      · intro hx
        rcases List.mem_append.mp hx with hx | hx
        · exact ⟨FsTree.node files subdirs, List.mem_cons_self _ _, hx⟩
        · rw [List.mem_flatten] at hx
          obtain ⟨l, hl, hxl⟩ := hx
          rw [List.mem_map] at hl
          obtain ⟨⟨d, hd⟩, _, rfl⟩ := hl
          rw [hsub d hd x] at hxl
          obtain ⟨d', hd', hx'⟩ := hxl
          refine ⟨d', List.mem_cons_of_mem _ ?_, hx'⟩
          rw [List.mem_flatten]
          exact ⟨dirsOf d, List.mem_map.mpr ⟨⟨d, hd⟩, List.mem_attach _ _, rfl⟩, hd'⟩
      · rintro ⟨d', hd', hx'⟩
        rcases List.mem_cons.mp hd' with rfl | hd'
        · exact List.mem_append_left _ hx'
        · rw [List.mem_flatten] at hd'
          obtain ⟨l, hl, hd'l⟩ := hd'
          rw [List.mem_map] at hl
          obtain ⟨⟨d, hd⟩, _, rfl⟩ := hl
          refine List.mem_append_right _ ?_
          rw [List.mem_flatten]
          exact ⟨getenteredurls d, List.mem_map.mpr ⟨⟨d, hd⟩, List.mem_attach _ _, rfl⟩,
            (hsub d hd x).mpr ⟨d', hd'l, hx'⟩⟩

/-- Counterexample to C6.  A `URL` file whose text is `"a\n\n"` has a
second line that strips to the empty string; `getenteredurls` adds that
empty string to its result, while a scanner adding only non-empty
stripped lines, as the claim describes, would not. -/
theorem getenteredurls_empty_line_cex :
    "" ∈ getenteredurls (FsTree.node [("URL", "a\n\n")] []) ∧
      "" ∉ specScanner (FsTree.node [("URL", "a\n\n")] []) := by
  constructor
  · simp only [getenteredurls]
    decide
  · simp only [specScanner]
    decide

/-- C6 as amended.  `getenteredurls` visits every directory of the tree
recursively, and its accumulated set holds exactly the whitespace-stripped
lines (empty results included) of every file named `URL` it finds. -/
theorem getenteredurls_characterization (t : FsTree) (x : String) :
    x ∈ getenteredurls t ↔ ∃ d ∈ dirsOf t, ∃ content,
      (filesOf d).lookup "URL" = some content ∧
      ∃ line ∈ pyReadlines content, pyStrip line = x := by
  rw [mem_getenteredurls_aux (sizeOf t) t le_rfl x]
  constructor
  · rintro ⟨d, hd, hx⟩
    exact ⟨d, hd, (mem_urlFileLines _ x).mp hx⟩
  · rintro ⟨d, hd, hc⟩
    exact ⟨d, hd, (mem_urlFileLines _ x).mpr hc⟩

end Oplprobe
